import Mathlib

/-
Shallow embedding of the operating-room scheduler in src/main.py.

Modelling conventions:
- Timestamps are minutes since midnight of the (fixed) scheduling day, as
  unbounded integers, mirroring datetime.datetime values on today's date.
- Durations are unbounded integers (Python int), added to timestamps the way
  timedelta(minutes=duration) is.
- The two resource dictionaries (self.ors, self.surgeons) are insertion-ordered
  association lists, mirroring Python dict semantics: lookup by key, update in
  place when the key exists, append when it does not, iteration in insertion
  order.
- heapq.heappop on a heap whose elements compare with Surgery.__lt__ (a strict
  weak order) always removes a minimal element; which of several mutually
  incomparable minima is removed is unspecified.  heap_pop below removes the
  first minimal element of the pending list, a deterministic refinement of
  that contract.
- The while-loop runs exactly (number of pending cases) iterations, since each
  iteration pops one case; triage_loop_fuel makes that bound explicit so the
  recursion is structural.
-/

/- Operational constants from the top of main.py. -/

def OR_START_HOUR : Int := 7

def OR_START_MINUTE : Int := 30

def OR_END_HOUR : Int := 16

def OR_END_MINUTE : Int := 30

/-- Models datetime.datetime(today, hour, minute) as minutes since midnight;
used for Scheduler._day_start. -/
def day_start (hour minute : Int) : Int := 60 * hour + minute

/-- Models Scheduler._day_end, identical conversion. -/
def day_end (hour minute : Int) : Int := 60 * hour + minute

/-- Scheduler._day_start() with default arguments: 07:30 = 450 minutes. -/
def global_day_start : Int := day_start OR_START_HOUR OR_START_MINUTE

/-- Scheduler._day_end() with default arguments: 16:30 = 990 minutes. -/
def global_day_end : Int := day_end OR_END_HOUR OR_END_MINUTE

/-- The module-level CUSTOM_SURGEON_HOURS dictionary, as a lookup function
returning (start hour, start minute, end hour, end minute). -/
def CUSTOM_SURGEON_HOURS (surgeon_id : String) : Option (Int × Int × Int × Int) :=
  if surgeon_id = "Dr. Smith" then some (7, 30, 16, 30)
  else if surgeon_id = "Dr. Jones" then some (8, 0, 16, 0)
  else if surgeon_id = "Dr. Lee" then some (7, 30, 14, 0)
  else if surgeon_id = "Dr. Patel" then some (7, 30, 16, 30)
  else if surgeon_id = "Dr. Singh" then some (8, 0, 15, 0)
  else if surgeon_id = "Dr. Gupta" then some (7, 30, 14, 30)
  else none

/-- The Surgery class: its constructor fields plus the three outcome fields,
which start out as None. -/
structure Surgery where
  s_id : Int
  duration : Int
  surgeon_id : String
  priority : String
  surgeon_seniority : Int
  scheduled_or : Option String
  scheduled_start_time : Option Int
  scheduled_end_time : Option Int
deriving DecidableEq, Repr

/-- Surgery.get_priority_value: Emergency 1, Urgent 2, anything else 3. -/
def Surgery.get_priority_value (s : Surgery) : Int :=
  if s.priority = "Emergency" then 1
  else if s.priority = "Urgent" then 2
  else 3

/-- Surgery.__lt__: priority value, then surgeon seniority, then duration. -/
def Surgery.lt (a b : Surgery) : Bool :=
  if a.get_priority_value ≠ b.get_priority_value then
    decide (a.get_priority_value < b.get_priority_value)
  else if a.surgeon_seniority ≠ b.surgeon_seniority then
    decide (a.surgeon_seniority < b.surgeon_seniority)
  else
    decide (a.duration < b.duration)

/-- The constructor data of a case, without the mutable outcome fields.  Two
list entries denote the same input case exactly when their cores agree. -/
structure CaseCore where
  s_id : Int
  duration : Int
  surgeon_id : String
  priority : String
  surgeon_seniority : Int
deriving DecidableEq, Repr

def Surgery.core (c : Surgery) : CaseCore :=
  { s_id := c.s_id
    duration := c.duration
    surgeon_id := c.surgeon_id
    priority := c.priority
    surgeon_seniority := c.surgeon_seniority }

/- Python-dict operations on insertion-ordered association lists. -/

/-- d.get(k) / d[k]: value of the first (hence, with unique keys, the only)
binding of k. -/
def dictGet (m : List (String × Int)) (k : String) : Option Int :=
  match m with
  | [] => none
  | (k2, v) :: rest => if k2 = k then some v else dictGet rest k

/-- d[k] = v: overwrite in place when the key is present, append otherwise. -/
def dictSet (m : List (String × Int)) (k : String) (v : Int) : List (String × Int) :=
  if (dictGet m k).isSome then m.map (fun p => if p.1 = k then (k, v) else p)
  else m ++ [(k, v)]

/-- The Scheduler class state. -/
structure Scheduler where
  ors : List (String × Int)
  surgeons : List (String × Int)
  pending_surgeries : List Surgery
  scheduled_surgeries : List Surgery
  unscheduled_surgeries : List Surgery
deriving DecidableEq, Repr

/-- Scheduler.__init__: every registered room and surgeon starts available at
the day start. -/
def Scheduler.init (or_ids surgeon_ids : List String) : Scheduler :=
  { ors := or_ids.foldl (fun m or_id => dictSet m or_id global_day_start) []
    surgeons := surgeon_ids.foldl (fun m surgeon_id => dictSet m surgeon_id global_day_start) []
    pending_surgeries := []
    scheduled_surgeries := []
    unscheduled_surgeries := [] }

/-- Scheduler.add_surgery: heappush keeps the heap contents; the pending list
records them in push order. -/
def Scheduler.add_surgery (st : Scheduler) (c : Surgery) : Scheduler :=
  { st with pending_surgeries := st.pending_surgeries ++ [c] }

/-- Scheduler._surgeon_shift_limits: (shift start, shift end) in minutes. -/
def surgeon_shift_limits (surgeon_id : String) : Int × Int :=
  match CUSTOM_SURGEON_HOURS surgeon_id with
  | some (h_start, m_start, h_end, m_end) => (day_start h_start m_start, day_end h_end m_end)
  | none => (day_start OR_START_HOUR OR_START_MINUTE, day_end OR_END_HOUR OR_END_MINUTE)

/-- The expression self.surgeons.get(surgeon_id, shift_start) evaluated inside
the room loop of _find_earliest_feasible_slot. -/
def surgeon_available (surgeons : List (String × Int)) (surgeon_id : String)
    (shift_start : Int) : Int :=
  (dictGet surgeons surgeon_id).getD shift_start

/-- The for-loop of _find_earliest_feasible_slot over self.ors.items(), carrying
the accumulators earliest_start and best_or. -/
def find_loop (surgeons : List (String × Int)) (surgeon_id : String)
    (shift_start shift_end duration : Int) :
    List (String × Int) → Int → Option String → Int × Option String
  | [], earliest_start, best_or => (earliest_start, best_or)
  | (or_id, or_available) :: rest, earliest_start, best_or =>
    let sav := surgeon_available surgeons surgeon_id shift_start
    let possible_start := max (max or_available sav) shift_start
    let possible_end := possible_start + duration
    if possible_end ≤ global_day_end ∧ possible_end ≤ shift_end then
      if possible_start < earliest_start then
        find_loop surgeons surgeon_id shift_start shift_end duration rest possible_start (some or_id)
      else
        find_loop surgeons surgeon_id shift_start shift_end duration rest earliest_start best_or
    else
      find_loop surgeons surgeon_id shift_start shift_end duration rest earliest_start best_or

/-- Scheduler._find_earliest_feasible_slot.  earliest_start is initialised to
_day_end() + timedelta(days=1); the final `if best_or:` test is Python
truthiness, false for None and for the empty string. -/
def Scheduler.find_earliest_feasible_slot (st : Scheduler) (surgery : Surgery) :
    Option String × Option Int :=
  let limits := surgeon_shift_limits surgery.surgeon_id
  match find_loop st.surgeons surgery.surgeon_id limits.1 limits.2 surgery.duration
      st.ors (global_day_end + 24 * 60) none with
  | (earliest_start, some best_or) =>
    if best_or = "" then (none, none) else (some best_or, some earliest_start)
  | (_, none) => (none, none)

/-- heapq.heappop: removes a minimal element under Surgery.__lt__.  This model
removes the first minimal element of the list. -/
def heap_pop (l : List Surgery) : Option (Surgery × List Surgery) :=
  match l with
  | [] => none
  | x :: xs =>
    let m := xs.foldl (fun acc y => if Surgery.lt y acc then y else acc) x
    some (m, (x :: xs).erase m)

/-- One iteration of the while-loop of triage_and_optimize_or_flow, applied to
the popped case.  `if or_id and start:` is Python truthiness: or_id must be a
non-None, non-empty string; start, a datetime, is truthy whenever non-None. -/
def Scheduler.triage_step (st : Scheduler) (c : Surgery) : Scheduler :=
  match st.find_earliest_feasible_slot c with
  | (some or_id, some start) =>
    if or_id = "" then
      { st with unscheduled_surgeries := st.unscheduled_surgeries ++ [c] }
    else
      let finish := start + c.duration
      let c2 :=
        { c with
          scheduled_or := some or_id
          scheduled_start_time := some start
          scheduled_end_time := some finish }
      { st with
        ors := dictSet st.ors or_id finish
        surgeons := dictSet st.surgeons c.surgeon_id finish
        scheduled_surgeries := st.scheduled_surgeries ++ [c2] }
  | (some _, none) => { st with unscheduled_surgeries := st.unscheduled_surgeries ++ [c] }
  | (none, _) => { st with unscheduled_surgeries := st.unscheduled_surgeries ++ [c] }

/-- The while-loop, with an explicit iteration bound.  Each iteration pops one
pending case, so fuel = (number of pending cases) runs the loop to completion
exactly as `while self.pending_surgeries:` does. -/
def Scheduler.triage_loop_fuel : Nat → Scheduler → Scheduler
  | 0, st => st
  | fuel + 1, st =>
    match heap_pop st.pending_surgeries with
    | none => st
    | some (c, rest) =>
      Scheduler.triage_loop_fuel fuel
        (Scheduler.triage_step { st with pending_surgeries := rest } c)

/-- Sort key s.scheduled_start_time; every scheduled case has it set, so the
default value of the projection is never consulted. -/
def start_val (c : Surgery) : Int := c.scheduled_start_time.getD 0

def end_val (c : Surgery) : Int := c.scheduled_end_time.getD 0

/-- Stable insertion of one case into a start-sorted list. -/
def insert_by_start (c : Surgery) : List Surgery → List Surgery
  | [] => [c]
  | d :: rest =>
    if start_val c ≤ start_val d then c :: d :: rest else d :: insert_by_start c rest

/-- self.scheduled_surgeries.sort(key=lambda s: s.scheduled_start_time): a
stable sort by scheduled start time. -/
def sort_by_start : List Surgery → List Surgery
  | [] => []
  | c :: rest => insert_by_start c (sort_by_start rest)

/-- Scheduler.triage_and_optimize_or_flow: drain the heap, then sort the
accepted cases chronologically. -/
def Scheduler.triage_and_optimize_or_flow (st : Scheduler) : Scheduler :=
  let final := Scheduler.triage_loop_fuel st.pending_surgeries.length st
  { final with scheduled_surgeries := sort_by_start final.scheduled_surgeries }

/-- The whole run as exercised by __main__: construct the scheduler, push the
task list, run the main loop. -/
def run_scheduler (or_ids surgeon_ids : List String) (tasks : List Surgery) : Scheduler :=
  Scheduler.triage_and_optimize_or_flow
    (tasks.foldl Scheduler.add_surgery (Scheduler.init or_ids surgeon_ids))

/-- The sequence of cases in the order heappop delivers them. -/
def pop_order_fuel : Nat → List Surgery → List Surgery
  | 0, _ => []
  | fuel + 1, l =>
    match heap_pop l with
    | none => []
    | some (c, rest) => c :: pop_order_fuel fuel rest

def pop_order (l : List Surgery) : List Surgery := pop_order_fuel l.length l

/- Specification-side definitions (following the wording of spec.md, for the
refinement statements; the source-side definitions above are the authority). -/

/-- Candidate of one room, following spec section 4.5: candidate start is the
max of the three availabilities, feasible when the candidate end respects both
the global day end and the assignee's shift end. -/
def spec_candidate (surgeons : List (String × Int)) (surgeon_id : String)
    (shift_start shift_end duration : Int) (p : String × Int) : Option (String × Int) :=
  let sav := surgeon_available surgeons surgeon_id shift_start
  let candidate_start := max (max p.2 sav) shift_start
  if candidate_start + duration ≤ global_day_end ∧ candidate_start + duration ≤ shift_end then
    some (p.1, candidate_start)
  else none

/-- All feasible (room, candidate start) pairs, in room enumeration order. -/
def spec_feasible_candidates (st : Scheduler) (surgery : Surgery) : List (String × Int) :=
  let limits := surgeon_shift_limits surgery.surgeon_id
  st.ors.filterMap
    (spec_candidate st.surgeons surgery.surgeon_id limits.1 limits.2 surgery.duration)

/-- One step of keeping the best candidate: a later candidate replaces the
current best only when its start is strictly smaller, so ties keep the first
candidate found. -/
def spec_min_step (acc : Option (String × Int)) (cand : String × Int) :
    Option (String × Int) :=
  match acc with
  | none => some cand
  | some b => if cand.2 < b.2 then some cand else some b

/-- The candidate with minimal start, keeping the first one found on ties,
exactly as spec section 4.5 prescribes. -/
def spec_first_min (l : List (String × Int)) : Option (String × Int) :=
  l.foldl spec_min_step none

/-- The lexicographic triage order of spec section 4.1 on
(priority value, seniority, duration). -/
def triage_lex (a b : Surgery) : Prop :=
  a.get_priority_value < b.get_priority_value ∨
    (a.get_priority_value = b.get_priority_value ∧
      (a.surgeon_seniority < b.surgeon_seniority ∨
        (a.surgeon_seniority = b.surgeon_seniority ∧ a.duration < b.duration)))

/- Interval predicates for the non-overlap invariants. -/

/-- The half-open intervals of two cases do not intersect. -/
def disjoint_intervals (a b : Surgery) : Prop :=
  end_val a ≤ start_val b ∨ end_val b ≤ start_val a

/-- Cases committed to the same room occupy disjoint intervals. -/
def RoomDisjoint (a b : Surgery) : Prop :=
  a.scheduled_or = b.scheduled_or → disjoint_intervals a b

/-- Cases of the same assignee occupy disjoint intervals. -/
def SurgeonDisjoint (a b : Surgery) : Prop :=
  a.surgeon_id = b.surgeon_id → disjoint_intervals a b

/-- The run-time invariant of the scheduling loop relating the committed cases
to the two resource trackers. -/
structure SchedInv (st : Scheduler) : Prop where
  fields_set : ∀ c ∈ st.scheduled_surgeries, ∃ r s,
    c.scheduled_or = some r ∧ r ≠ "" ∧ c.scheduled_start_time = some s ∧
    c.scheduled_end_time = some (s + c.duration) ∧ 0 < c.duration ∧
    s + c.duration ≤ global_day_end ∧
    s + c.duration ≤ (surgeon_shift_limits c.surgeon_id).2
  room_bound : ∀ c ∈ st.scheduled_surgeries, ∀ p ∈ st.ors,
    some p.1 = c.scheduled_or → end_val c ≤ p.2
  surg_some : ∀ c ∈ st.scheduled_surgeries, (dictGet st.surgeons c.surgeon_id).isSome
  surg_bound : ∀ c ∈ st.scheduled_surgeries, ∀ p ∈ st.surgeons,
    p.1 = c.surgeon_id → end_val c ≤ p.2
  room_disj : st.scheduled_surgeries.Pairwise RoomDisjoint
  surg_disj : st.scheduled_surgeries.Pairwise SurgeonDisjoint

/- Concrete data for witnesses and counterexamples. -/

/-- A well-formed demo case, as built by the Surgery constructor. -/
def demo_task : Surgery :=
  { s_id := 1
    duration := 60
    surgeon_id := "Dr. Smith"
    priority := "Emergency"
    surgeon_seniority := 1
    scheduled_or := none
    scheduled_start_time := none
    scheduled_end_time := none }

/-- demo_task after being committed to room OR-A at 07:30. -/
def demo_committed : Surgery :=
  { demo_task with
    scheduled_or := some "OR-A"
    scheduled_start_time := some 450
    scheduled_end_time := some 510 }

/-- A scheduler state whose only registered room has the falsy identifier "". -/
def falsy_room_state : Scheduler :=
  { ors := [("", global_day_start)]
    surgeons := []
    pending_surgeries := []
    scheduled_surgeries := []
    unscheduled_surgeries := [] }

/-- A scheduler state with one room far past the day end, for the
negative-duration anomaly. -/
def late_room_state : Scheduler :=
  { ors := [("OR-A", 3000)]
    surgeons := []
    pending_surgeries := []
    scheduled_surgeries := []
    unscheduled_surgeries := [] }

/-- A case with a negative duration (no input validation exists in the code). -/
def negative_task : Surgery :=
  { s_id := 2
    duration := -2010
    surgeon_id := "Dr. Smith"
    priority := "Elective"
    surgeon_seniority := 1
    scheduled_or := none
    scheduled_start_time := none
    scheduled_end_time := none }

/-- A normal one-room scheduler state for the C2 witness. -/
def demo_state : Scheduler :=
  { ors := [("OR-A", global_day_start)]
    surgeons := [("Dr. Smith", global_day_start)]
    pending_surgeries := []
    scheduled_surgeries := []
    unscheduled_surgeries := [] }

/- Demo cases for the comparator witness. -/

def cmp_a : Surgery :=
  { s_id := 10
    duration := 30
    surgeon_id := "Dr. Smith"
    priority := "Emergency"
    surgeon_seniority := 1
    scheduled_or := none
    scheduled_start_time := none
    scheduled_end_time := none }

def cmp_b : Surgery :=
  { s_id := 11
    duration := 45
    surgeon_id := "Dr. Jones"
    priority := "Urgent"
    surgeon_seniority := 2
    scheduled_or := none
    scheduled_start_time := none
    scheduled_end_time := none }

def cmp_c : Surgery :=
  { s_id := 12
    duration := 90
    surgeon_id := "Dr. Lee"
    priority := "Elective"
    surgeon_seniority := 3
    scheduled_or := none
    scheduled_start_time := none
    scheduled_end_time := none }

/- Helper lemmas about the dictionary model. -/

theorem dictGet_isSome_of_mem {m : List (String × Int)} {p : String × Int}
    (h : p ∈ m) : (dictGet m p.1).isSome := by
  induction m with
  | nil => cases h
  | cons q rest ih =>
    rcases List.mem_cons.1 h with h2 | h2
    · subst h2
      obtain ⟨k, v⟩ := p
      simp [dictGet]
    · obtain ⟨k2, v⟩ := q
      by_cases hk : k2 = p.1
      · simp [dictGet, hk]
      · simpa [dictGet, hk] using ih h2

theorem mem_of_dictGet {m : List (String × Int)} {k : String} {v : Int}
    (h : dictGet m k = some v) : (k, v) ∈ m := by
  induction m with
  | nil => simp [dictGet] at h
  | cons q rest ih =>
    obtain ⟨k2, w⟩ := q
    by_cases hk : k2 = k
    · simp [dictGet, hk] at h
      subst hk
      subst h
      exact List.mem_cons_self _ _
    · simp [dictGet, hk] at h
      exact List.mem_cons_of_mem _ (ih h)

theorem keys_ne_of_dictGet_none {m : List (String × Int)} {k : String}
    (h : dictGet m k = none) : ∀ p ∈ m, p.1 ≠ k := by
  intro p hp hk
  have := dictGet_isSome_of_mem hp
  rw [hk, h] at this
  simp at this

theorem dictSet_mem {m : List (String × Int)} {k : String} {v : Int} {p : String × Int}
    (h : p ∈ dictSet m k v) : p = (k, v) ∨ (p ∈ m ∧ p.1 ≠ k) := by
  unfold dictSet at h
  split at h
  case isTrue hsome =>
    rcases List.mem_map.1 h with ⟨q, hq, hqe⟩
    by_cases hk : q.1 = k
    · left
      rw [if_pos hk] at hqe
      exact hqe.symm
    · right
      rw [if_neg hk] at hqe
      exact ⟨hqe ▸ hq, hqe ▸ hk⟩
  case isFalse hnone =>
    rcases List.mem_append.1 h with h2 | h2
    · right
      refine ⟨h2, ?_⟩
      have h0 : dictGet m k = none := by
        rcases hx : dictGet m k with _ | w
        · rfl
        · rw [hx] at hnone
          simp at hnone
      exact keys_ne_of_dictGet_none h0 p h2
    · left
      simpa using h2

theorem dictGet_append_right (m l : List (String × Int)) (k : String)
    (h : dictGet m k = none) : dictGet (m ++ l) k = dictGet l k := by
  induction m with
  | nil => simp
  | cons q rest ih =>
    obtain ⟨k2, w⟩ := q
    by_cases hk : k2 = k
    · simp [dictGet, hk] at h
    · simp only [dictGet, if_neg hk] at h
      simp only [List.cons_append, dictGet, if_neg hk]
      exact ih h

theorem dictGet_append_left (m l : List (String × Int)) (k : String) {v : Int}
    (h : dictGet m k = some v) : dictGet (m ++ l) k = some v := by
  induction m with
  | nil => simp [dictGet] at h
  | cons q rest ih =>
    obtain ⟨k2, w⟩ := q
    by_cases hk : k2 = k
    · simp only [dictGet, if_pos hk] at h
      simp only [List.cons_append, dictGet, if_pos hk]
      exact h
    · simp only [dictGet, if_neg hk] at h
      simp only [List.cons_append, dictGet, if_neg hk]
      exact ih h

theorem dictGet_map_set (m : List (String × Int)) (k : String) (v : Int)
    (h : (dictGet m k).isSome) :
    dictGet (m.map (fun p => if p.1 = k then (k, v) else p)) k = some v := by
  induction m with
  | nil => simp [dictGet] at h
  | cons q rest ih =>
    obtain ⟨k2, w⟩ := q
    simp only [List.map_cons]
    by_cases hk : k2 = k
    · subst hk
      rw [show (if (k2, w).1 = k2 then (k2, v) else (k2, w)) = (k2, v) from if_pos rfl]
      simp [dictGet]
    · rw [show (if (k2, w).1 = k then (k, v) else (k2, w)) = (k2, w) from if_neg hk]
      simp only [dictGet, if_neg hk] at h ⊢
      exact ih h

theorem dictGet_dictSet_self (m : List (String × Int)) (k : String) (v : Int) :
    dictGet (dictSet m k v) k = some v := by
  unfold dictSet
  split
  case isTrue hsome => exact dictGet_map_set m k v hsome
  case isFalse hnone =>
    have h0 : dictGet m k = none := by
      rcases hx : dictGet m k with _ | w
      · rfl
      · rw [hx] at hnone
        simp at hnone
    rw [dictGet_append_right m _ k h0]
    simp [dictGet]

theorem dictGet_map_set_ne (m : List (String × Int)) (k : String) (v : Int)
    {k2 : String} (h : k2 ≠ k) :
    dictGet (m.map (fun p => if p.1 = k then (k, v) else p)) k2 = dictGet m k2 := by
  induction m with
  | nil => simp
  | cons q rest ih =>
    obtain ⟨k3, w⟩ := q
    simp only [List.map_cons]
    by_cases hk : k3 = k
    · subst hk
      have hne : k3 ≠ k2 := fun hh => h hh.symm
      simp only [if_pos rfl]
      simp only [dictGet, if_neg hne]
      exact ih
    · rw [show (if (k3, w).1 = k then (k, v) else (k3, w)) = (k3, w) by simp [hk]]
      by_cases hk2 : k3 = k2
      · simp [dictGet, hk2]
      · simp only [dictGet, if_neg hk2]
        exact ih

theorem dictGet_dictSet_ne (m : List (String × Int)) (k : String) (v : Int)
    {k2 : String} (h : k2 ≠ k) : dictGet (dictSet m k v) k2 = dictGet m k2 := by
  unfold dictSet
  split
  case isTrue hsome => exact dictGet_map_set_ne m k v h
  case isFalse hnone =>
    have h0 : dictGet m k = none := by
      rcases hx : dictGet m k with _ | w
      · rfl
      · rw [hx] at hnone
        simp at hnone
    rcases hx : dictGet m k2 with _ | w
    · rw [dictGet_append_right m _ k2 hx]
      have hne : k ≠ k2 := fun hh => h hh.symm
      simp [dictGet, hne]
    · rw [dictGet_append_left m _ k2 hx]

theorem dictGet_dictSet_isSome (m : List (String × Int)) (k : String) (v : Int)
    {k2 : String} (h : (dictGet m k2).isSome) :
    (dictGet (dictSet m k v) k2).isSome := by
  by_cases hk : k2 = k
  · subst hk
    simp [dictGet_dictSet_self]
  · rwa [dictGet_dictSet_ne m k v hk]

/- Helper lemmas about the comparator. -/

theorem Surgery.lt_iff (a b : Surgery) : Surgery.lt a b = true ↔ triage_lex a b := by
  unfold Surgery.lt triage_lex
  split_ifs with h1 h2 <;> simp only [decide_eq_true_eq] <;> omega

theorem Surgery.lt_irrefl (a : Surgery) : Surgery.lt a a = false := by
  unfold Surgery.lt
  simp

theorem Surgery.lt_trans {a b c : Surgery} (h1 : Surgery.lt a b = true)
    (h2 : Surgery.lt b c = true) : Surgery.lt a c = true := by
  rw [Surgery.lt_iff] at h1 h2 ⊢
  unfold triage_lex at h1 h2 ⊢
  omega

theorem Surgery.lt_resolve {a b c : Surgery} (h1 : Surgery.lt a b = true)
    (h2 : Surgery.lt a c = false) : Surgery.lt c b = true := by
  rw [Surgery.lt_iff] at h1 ⊢
  have h2x : ¬ Surgery.lt a c = true := by simp [h2]
  rw [Surgery.lt_iff] at h2x
  unfold triage_lex at h1 h2x ⊢
  omega

/- Helper lemmas about heap_pop. -/

theorem fold_min_mem (x : Surgery) (xs : List Surgery) :
    xs.foldl (fun acc y => if Surgery.lt y acc then y else acc) x ∈ x :: xs := by
  induction xs generalizing x with
  | nil => simp
  | cons z zs ih =>
    simp only [List.foldl_cons]
    rcases List.mem_cons.1 (ih (if Surgery.lt z x then z else x)) with h | h
    · rw [h]
      split
      · exact List.mem_cons_of_mem _ (List.mem_cons_self _ _)
      · exact List.mem_cons_self _ _
    · exact List.mem_cons_of_mem _ (List.mem_cons_of_mem _ h)

theorem fold_min_le (x : Surgery) (xs : List Surgery) :
    ∀ y ∈ x :: xs,
      Surgery.lt y (xs.foldl (fun acc y => if Surgery.lt y acc then y else acc) x) = false := by
  induction xs generalizing x with
  | nil =>
    intro y hy
    simp at hy
    simpa [hy] using Surgery.lt_irrefl y
  | cons z zs ih =>
    intro y hy
    simp only [List.foldl_cons]
    by_cases hzx : Surgery.lt z x = true
    · rw [if_pos hzx]
      rcases List.mem_cons.1 hy with rfl | hy2
      · -- y = x: were x below the minimum m of z :: zs, then z < x < m contradicts z not below m
        rcases hm : Surgery.lt y (zs.foldl (fun acc y => if Surgery.lt y acc then y else acc) z)
          with _ | _
        · rfl
        · exfalso
          have hzm := ih z z (List.mem_cons_self _ _)
          have hz2 := Surgery.lt_trans hzx hm
          rw [hzm] at hz2
          cases hz2
      · exact ih z y hy2
    · have hzx2 : Surgery.lt z x = false := by
        rcases h : Surgery.lt z x with _ | _
        · rfl
        · exact absurd h hzx
      rw [if_neg (by simp [hzx2])]
      rcases List.mem_cons.1 hy with hyx | hy2
      · rw [hyx]
        exact ih x x (List.mem_cons_self _ _)
      · rcases List.mem_cons.1 hy2 with rfl | hy3
        · -- y = z: were z below the minimum m of x :: zs, then x < m, contradiction
          rcases hm : Surgery.lt y (zs.foldl (fun acc y => if Surgery.lt y acc then y else acc) x)
            with _ | _
          · rfl
          · exfalso
            have hxm := Surgery.lt_resolve hm hzx2
            have hx0 := ih x x (List.mem_cons_self _ _)
            rw [hx0] at hxm
            cases hxm
        · exact ih x y (List.mem_cons_of_mem _ hy3)

theorem heap_pop_none_iff (l : List Surgery) : heap_pop l = none ↔ l = [] := by
  cases l <;> simp [heap_pop]

theorem heap_pop_mem {l rest : List Surgery} {c : Surgery}
    (h : heap_pop l = some (c, rest)) : c ∈ l := by
  cases l with
  | nil => simp [heap_pop] at h
  | cons x xs =>
    simp only [heap_pop] at h
    obtain ⟨h1, h2⟩ := Prod.mk.injEq .. ▸ (Option.some.injEq .. ▸ h)
    exact h1 ▸ fold_min_mem x xs

theorem heap_pop_min {l rest : List Surgery} {c : Surgery}
    (h : heap_pop l = some (c, rest)) : ∀ y ∈ l, Surgery.lt y c = false := by
  cases l with
  | nil => simp [heap_pop] at h
  | cons x xs =>
    simp only [heap_pop] at h
    obtain ⟨h1, h2⟩ := Prod.mk.injEq .. ▸ (Option.some.injEq .. ▸ h)
    exact h1 ▸ fold_min_le x xs

theorem heap_pop_perm {l rest : List Surgery} {c : Surgery}
    (h : heap_pop l = some (c, rest)) : l.Perm (c :: rest) := by
  have hmem := heap_pop_mem h
  cases l with
  | nil => simp [heap_pop] at h
  | cons x xs =>
    simp only [heap_pop] at h
    obtain ⟨h1, h2⟩ := Prod.mk.injEq .. ▸ (Option.some.injEq .. ▸ h)
    rw [← h2, ← h1]
    exact List.perm_cons_erase (h1 ▸ hmem)

theorem heap_pop_length {l rest : List Surgery} {c : Surgery}
    (h : heap_pop l = some (c, rest)) : rest.length < l.length := by
  have := (heap_pop_perm h).length_eq
  simp at this
  omega

theorem heap_pop_subset {l rest : List Surgery} {c : Surgery}
    (h : heap_pop l = some (c, rest)) : rest ⊆ l := by
  intro y hy
  exact (heap_pop_perm h).symm.subset (List.mem_cons_of_mem _ hy)

/- Helper lemmas about the chronological sort. -/

theorem insert_by_start_perm (c : Surgery) (l : List Surgery) :
    (insert_by_start c l).Perm (c :: l) := by
  induction l with
  | nil => simp [insert_by_start]
  | cons d rest ih =>
    unfold insert_by_start
    split
    · exact List.Perm.refl _
    · exact (ih.cons d).trans (List.Perm.swap c d rest)

theorem sort_by_start_perm (l : List Surgery) : (sort_by_start l).Perm l := by
  induction l with
  | nil => simp [sort_by_start]
  | cons c rest ih =>
    exact (insert_by_start_perm c (sort_by_start rest)).trans (ih.cons c)

/- Helper lemmas about the pop order. -/

theorem pop_order_fuel_subset : ∀ (fuel : Nat) (l : List Surgery),
    pop_order_fuel fuel l ⊆ l := by
  intro fuel
  induction fuel with
  | zero => intro l; simp [pop_order_fuel]
  | succ n ih =>
    intro l y hy
    simp only [pop_order_fuel] at hy
    rcases hpop : heap_pop l with _ | ⟨c, rest⟩
    · rw [hpop] at hy
      simp at hy
    · rw [hpop] at hy
      rcases List.mem_cons.1 hy with rfl | hy2
      · exact heap_pop_mem hpop
      · exact heap_pop_subset hpop (ih rest hy2)

theorem pop_order_fuel_pairwise : ∀ (fuel : Nat) (l : List Surgery),
    (pop_order_fuel fuel l).Pairwise (fun a b => Surgery.lt b a = false) := by
  intro fuel
  induction fuel with
  | zero => intro l; simp [pop_order_fuel]
  | succ n ih =>
    intro l
    simp only [pop_order_fuel]
    rcases hpop : heap_pop l with _ | ⟨c, rest⟩
    · simp
    · refine List.Pairwise.cons ?_ (ih rest)
      intro b hb
      exact heap_pop_min hpop b (heap_pop_subset hpop (pop_order_fuel_subset n rest hb))

/- Helper lemmas about the feasible-slot search. -/

theorem find_loop_some (surgeons : List (String × Int)) (surgeon_id : String)
    (shift_start shift_end duration : Int) :
    ∀ (l : List (String × Int)) (e : Int) (b : Option String) (e2 : Int) (r : String),
      find_loop surgeons surgeon_id shift_start shift_end duration l e b = (e2, some r) →
      (b = some r ∧ e2 = e) ∨
        (∃ av, (r, av) ∈ l ∧
          e2 = max (max av (surgeon_available surgeons surgeon_id shift_start)) shift_start ∧
          e2 + duration ≤ global_day_end ∧ e2 + duration ≤ shift_end) := by
  intro l
  induction l with
  | nil =>
    intro e b e2 r h
    simp only [find_loop] at h
    obtain ⟨h1, h2⟩ := Prod.mk.injEq .. ▸ h
    exact Or.inl ⟨h2, h1.symm⟩
  | cons p rest ih =>
    intro e b e2 r h
    obtain ⟨or_id, or_avail⟩ := p
    simp only [find_loop] at h
    split_ifs at h with hfeas hlt
    · rcases ih _ _ _ _ h with ⟨hb, he⟩ | ⟨av, hav, he, h1, h2⟩
      · obtain rfl : or_id = r := by simpa using hb
        refine Or.inr ⟨or_avail, List.mem_cons_self _ _, ?_, ?_, ?_⟩
        · omega
        · omega
        · omega
      · exact Or.inr ⟨av, List.mem_cons_of_mem _ hav, he, h1, h2⟩
    · rcases ih _ _ _ _ h with ⟨hb, he⟩ | ⟨av, hav, he, h1, h2⟩
      · exact Or.inl ⟨hb, he⟩
      · exact Or.inr ⟨av, List.mem_cons_of_mem _ hav, he, h1, h2⟩
    · rcases ih _ _ _ _ h with ⟨hb, he⟩ | ⟨av, hav, he, h1, h2⟩
      · exact Or.inl ⟨hb, he⟩
      · exact Or.inr ⟨av, List.mem_cons_of_mem _ hav, he, h1, h2⟩

/-- Definitional unfolding of _find_earliest_feasible_slot. -/
theorem find_slot_eq (st : Scheduler) (surgery : Surgery) :
    st.find_earliest_feasible_slot surgery =
      match find_loop st.surgeons surgery.surgeon_id
          (surgeon_shift_limits surgery.surgeon_id).1
          (surgeon_shift_limits surgery.surgeon_id).2
          surgery.duration st.ors (global_day_end + 24 * 60) none with
      | (earliest_start, some best_or) =>
        if best_or = "" then (none, none) else (some best_or, some earliest_start)
      | (_, none) => (none, none) := rfl

/-- The internal shape of _find_earliest_feasible_slot results: either both
components are None, or both are set and the room id is truthy. -/
theorem find_slot_shape (st : Scheduler) (surgery : Surgery) :
    st.find_earliest_feasible_slot surgery = (none, none) ∨
      ∃ r t, st.find_earliest_feasible_slot surgery = (some r, some t) ∧ r ≠ "" := by
  rcases hfl : find_loop st.surgeons surgery.surgeon_id
      (surgeon_shift_limits surgery.surgeon_id).1 (surgeon_shift_limits surgery.surgeon_id).2
      surgery.duration st.ors (global_day_end + 24 * 60) none with ⟨e2, b2⟩
  cases b2 with
  | none =>
    left
    rw [find_slot_eq, hfl]
  | some r =>
    by_cases hr : r = ""
    · left
      rw [find_slot_eq, hfl]
      simp [hr]
    · right
      refine ⟨r, e2, ?_, hr⟩
      rw [find_slot_eq, hfl]
      simp [hr]

theorem find_slot_some_facts {st : Scheduler} {surgery : Surgery} {r : String} {t : Int}
    (h : st.find_earliest_feasible_slot surgery = (some r, some t)) :
    r ≠ "" ∧ ∃ av, (r, av) ∈ st.ors ∧
      t = max (max av (surgeon_available st.surgeons surgery.surgeon_id
            (surgeon_shift_limits surgery.surgeon_id).1))
          (surgeon_shift_limits surgery.surgeon_id).1 ∧
      t + surgery.duration ≤ global_day_end ∧
      t + surgery.duration ≤ (surgeon_shift_limits surgery.surgeon_id).2 := by
  rw [find_slot_eq] at h
  rcases hfl : find_loop st.surgeons surgery.surgeon_id
      (surgeon_shift_limits surgery.surgeon_id).1 (surgeon_shift_limits surgery.surgeon_id).2
      surgery.duration st.ors (global_day_end + 24 * 60) none with ⟨e2, b2⟩
  rw [hfl] at h
  cases b2 with
  | none => simp at h
  | some b0 =>
    by_cases hb0 : b0 = ""
    · simp [hb0] at h
    · simp only [if_neg hb0] at h
      obtain ⟨h1, h2⟩ := Prod.mk.injEq .. ▸ h
      obtain rfl : b0 = r := by simpa using h1
      obtain rfl : e2 = t := by simpa using h2
      rcases find_loop_some _ _ _ _ _ _ _ _ _ _ hfl with ⟨hb, _⟩ | ⟨av, hav, he, hd, hs⟩
      · cases hb
      · exact ⟨hb0, av, hav, he, hd, hs⟩

/- Helper lemmas about the spec-side first-minimum fold. -/

theorem spec_min_step_none (c : String × Int) : spec_min_step none c = some c := rfl

theorem spec_min_step_some (b c : String × Int) :
    spec_min_step (some b) c = if c.2 < b.2 then some c else some b := rfl

theorem first_min_fold_mem :
    ∀ (l : List (String × Int)) (acc : Option (String × Int)) (c : String × Int),
      l.foldl spec_min_step acc = some c → acc = some c ∨ c ∈ l := by
  intro l
  induction l with
  | nil =>
    intro acc c h
    exact Or.inl h
  | cons d rest ih =>
    intro acc c h
    simp only [List.foldl_cons] at h
    rcases ih _ _ h with h2 | h2
    · cases acc with
      | none =>
        rw [spec_min_step_none] at h2
        have : d = c := by simpa using h2
        exact Or.inr (this ▸ List.mem_cons_self _ _)
      | some b =>
        rw [spec_min_step_some] at h2
        split at h2
        · have : d = c := by simpa using h2
          exact Or.inr (this ▸ List.mem_cons_self _ _)
        · exact Or.inl h2
    · exact Or.inr (List.mem_cons_of_mem _ h2)

theorem first_min_fold_le :
    ∀ (l : List (String × Int)) (acc : Option (String × Int)) (c : String × Int),
      l.foldl spec_min_step acc = some c →
      (∀ b, acc = some b → c.2 ≤ b.2) ∧ (∀ q ∈ l, c.2 ≤ q.2) := by
  intro l
  induction l with
  | nil =>
    intro acc c h
    refine ⟨?_, ?_⟩
    · intro b hb
      rw [hb] at h
      simp at h
      rw [h]
    · intro q hq
      cases hq
  | cons d rest ih =>
    intro acc c h
    simp only [List.foldl_cons] at h
    obtain ⟨ihacc, ihrest⟩ := ih _ _ h
    have hstep : ∀ v, spec_min_step acc d = some v →
        v.2 ≤ d.2 ∧ (∀ b, acc = some b → v.2 ≤ b.2) := by
      intro v hv
      cases acc with
      | none =>
        rw [spec_min_step_none] at hv
        obtain rfl : d = v := by simpa using hv
        exact ⟨le_refl _, by intro b hb; cases hb⟩
      | some b =>
        rw [spec_min_step_some] at hv
        split at hv
        next hlt =>
          obtain rfl : d = v := by simpa using hv
          refine ⟨le_refl _, ?_⟩
          intro b2 hb2
          obtain rfl : b = b2 := by simpa using hb2
          omega
        next hlt =>
          obtain rfl : b = v := by simpa using hv
          refine ⟨by omega, ?_⟩
          intro b2 hb2
          obtain rfl : b = b2 := by simpa using hb2
          omega
    rcases hv : spec_min_step acc d with _ | v
    · cases acc with
      | none => rw [spec_min_step_none] at hv; cases hv
      | some b =>
        rw [spec_min_step_some] at hv
        split at hv <;> cases hv
    · obtain ⟨hvd, hvacc⟩ := hstep v hv
      rw [hv] at h
      have hcv : c.2 ≤ v.2 := (ih _ _ h).1 v rfl
      refine ⟨?_, ?_⟩
      · intro b hb
        exact le_trans hcv (hvacc b hb)
      · intro q hq
        rcases List.mem_cons.1 hq with rfl | hq2
        · exact le_trans hcv hvd
        · exact ihrest q hq2

theorem first_min_fold_isSome :
    ∀ (l : List (String × Int)) (acc : Option (String × Int)), acc.isSome →
      (l.foldl spec_min_step acc).isSome := by
  intro l
  induction l with
  | nil =>
    intro acc h
    exact h
  | cons d rest ih =>
    intro acc h
    simp only [List.foldl_cons]
    apply ih
    cases acc with
    | none => simp at h
    | some b =>
      rw [spec_min_step_some]
      split <;> simp

theorem spec_first_min_mem {l : List (String × Int)} {c : String × Int}
    (h : spec_first_min l = some c) : c ∈ l := by
  rcases first_min_fold_mem l none c h with h2 | h2
  · cases h2
  · exact h2

theorem spec_first_min_le {l : List (String × Int)} {c : String × Int}
    (h : spec_first_min l = some c) : ∀ q ∈ l, c.2 ≤ q.2 :=
  (first_min_fold_le l none c h).2

theorem spec_first_min_none_iff (l : List (String × Int)) :
    spec_first_min l = none ↔ l = [] := by
  constructor
  · intro h
    cases l with
    | nil => rfl
    | cons d rest =>
      exfalso
      unfold spec_first_min at h
      simp only [List.foldl_cons] at h
      have := first_min_fold_isSome rest (spec_min_step none d) (by rw [spec_min_step_none]; simp)
      rw [h] at this
      simp at this
  · intro h
    subst h
    rfl

/-- For nonnegative durations the source loop accumulator tracks exactly the
first-minimum fold over the feasible candidates: no feasible start can reach
the sentinel initial value while no candidate has been kept. -/
theorem find_loop_spec_fold (surgeons : List (String × Int)) (surgeon_id : String)
    (shift_start shift_end duration : Int) (hdur : 0 ≤ duration) :
    ∀ (l : List (String × Int)) (e : Int) (b : Option String) (e2 : Int) (b2 : Option String),
      find_loop surgeons surgeon_id shift_start shift_end duration l e b = (e2, b2) →
      (b = none → global_day_end < e) →
      b2.map (fun r => (r, e2)) =
        (l.filterMap (spec_candidate surgeons surgeon_id shift_start shift_end duration)).foldl
          spec_min_step (b.map (fun r => (r, e))) := by
  intro l
  induction l with
  | nil =>
    intro e b e2 b2 h hb
    simp only [find_loop] at h
    obtain ⟨h1, h2⟩ := Prod.mk.injEq .. ▸ h
    subst h1
    subst h2
    simp
  | cons p rest ih =>
    intro e b e2 b2 h hb
    obtain ⟨or_id, or_avail⟩ := p
    simp only [find_loop] at h
    by_cases hfeas :
        max (max or_avail (surgeon_available surgeons surgeon_id shift_start)) shift_start
            + duration ≤ global_day_end ∧
          max (max or_avail (surgeon_available surgeons surgeon_id shift_start)) shift_start
            + duration ≤ shift_end
    · rw [if_pos hfeas] at h
      have hcand :
          spec_candidate surgeons surgeon_id shift_start shift_end duration (or_id, or_avail) =
            some (or_id,
              max (max or_avail (surgeon_available surgeons surgeon_id shift_start)) shift_start) := by
        simp only [spec_candidate]
        rw [if_pos hfeas]
      rw [List.filterMap_cons, hcand]
      simp only [List.foldl_cons]
      by_cases hlt :
          max (max or_avail (surgeon_available surgeons surgeon_id shift_start)) shift_start < e
      · rw [if_pos hlt] at h
        have hstep : spec_min_step (b.map (fun r => (r, e)))
            (or_id,
              max (max or_avail (surgeon_available surgeons surgeon_id shift_start)) shift_start) =
            some (or_id,
              max (max or_avail (surgeon_available surgeons surgeon_id shift_start)) shift_start) := by
          cases b with
          | none => rfl
          | some r0 =>
            rw [show Option.map (fun r => (r, e)) (some r0) = some (r0, e) from rfl]
            rw [spec_min_step_some]
            rw [if_pos hlt]
        rw [hstep]
        exact ih _ _ _ _ h (by intro hx; cases hx)
      · rw [if_neg hlt] at h
        cases b with
        | none =>
          exfalso
          have := hb rfl
          omega
        | some r0 =>
          have hstep : spec_min_step ((some r0).map (fun r => (r, e)))
              (or_id,
                max (max or_avail (surgeon_available surgeons surgeon_id shift_start)) shift_start) =
              some (r0, e) := by
            rw [show Option.map (fun r => (r, e)) (some r0) = some (r0, e) from rfl]
            rw [spec_min_step_some]
            rw [if_neg hlt]
          rw [hstep]
          have hres := ih _ _ _ _ h (by intro hx; cases hx)
          simpa using hres
    · rw [if_neg hfeas] at h
      have hcand :
          spec_candidate surgeons surgeon_id shift_start shift_end duration (or_id, or_avail) =
            none := by
        simp only [spec_candidate]
        rw [if_neg hfeas]
      rw [List.filterMap_cons, hcand]
      exact ih _ _ _ _ h hb

/- Helper lemmas about one iteration of the main loop. -/

/-- Each iteration either commits (both trackers advanced to the computed end,
the case's outcome fields all set) or rejects (only the unscheduled list grows). -/
theorem triage_step_cases (st : Scheduler) (c : Surgery) :
    (∃ r t, st.find_earliest_feasible_slot c = (some r, some t) ∧ r ≠ "" ∧
      Scheduler.triage_step st c =
        { st with
          ors := dictSet st.ors r (t + c.duration)
          surgeons := dictSet st.surgeons c.surgeon_id (t + c.duration)
          scheduled_surgeries := st.scheduled_surgeries ++
            [{ c with
               scheduled_or := some r
               scheduled_start_time := some t
               scheduled_end_time := some (t + c.duration) }] }) ∨
    (st.find_earliest_feasible_slot c = (none, none) ∧
      Scheduler.triage_step st c =
        { st with unscheduled_surgeries := st.unscheduled_surgeries ++ [c] }) := by
  rcases find_slot_shape st c with h | ⟨r, t, h, hr⟩
  · right
    refine ⟨h, ?_⟩
    unfold Scheduler.triage_step
    rw [h]
  · left
    refine ⟨r, t, h, hr, ?_⟩
    unfold Scheduler.triage_step
    rw [h]
    simp [hr]

theorem triage_step_pending (st : Scheduler) (c : Surgery) :
    (Scheduler.triage_step st c).pending_surgeries = st.pending_surgeries := by
  rcases triage_step_cases st c with ⟨r, t, _, _, hst⟩ | ⟨_, hst⟩ <;> rw [hst]

/-- SchedInv does not mention the pending queue. -/
theorem schedInv_set_pending {st : Scheduler} (l : List Surgery) (h : SchedInv st) :
    SchedInv { st with pending_surgeries := l } := by
  obtain ⟨f, rb, ss, sb, rd, sd⟩ := h
  exact ⟨f, rb, ss, sb, rd, sd⟩

theorem roomDisjoint_symm : Symmetric RoomDisjoint := by
  intro a b h hor
  exact (h hor.symm).symm

theorem surgeonDisjoint_symm : Symmetric SurgeonDisjoint := by
  intro a b h hor
  exact (h hor.symm).symm

/-- One loop iteration preserves the scheduling invariant, provided the popped
case has positive duration. -/
theorem triage_step_inv {st : Scheduler} {c : Surgery} (hInv : SchedInv st)
    (hc : 0 < c.duration) : SchedInv (Scheduler.triage_step st c) := by
  rcases triage_step_cases st c with ⟨r, t, hfind, hr, hst⟩ | ⟨hfind, hst⟩
  · -- commit branch
    obtain ⟨-, av, hav, ht, h990, hse⟩ := find_slot_some_facts hfind
    have hav_t : av ≤ t := by
      rw [ht]
      exact le_trans (le_max_left _ _) (le_max_left _ _)
    have hsav_t :
        surgeon_available st.surgeons c.surgeon_id (surgeon_shift_limits c.surgeon_id).1 ≤ t := by
      rw [ht]
      exact le_trans (le_max_right _ _) (le_max_left _ _)
    have htF : t ≤ t + c.duration := by omega
    have hA : ∀ d ∈ st.scheduled_surgeries, d.scheduled_or = some r → end_val d ≤ t := by
      intro d hd hdor
      have := hInv.room_bound d hd (r, av) hav (by rw [hdor])
      exact le_trans this hav_t
    have hB : ∀ d ∈ st.scheduled_surgeries, d.surgeon_id = c.surgeon_id → end_val d ≤ t := by
      intro d hd hds
      have hsome := hInv.surg_some d hd
      rw [hds] at hsome
      obtain ⟨v, hv⟩ := Option.isSome_iff_exists.1 hsome
      have hmem := mem_of_dictGet hv
      have hdv := hInv.surg_bound d hd (c.surgeon_id, v) hmem (by rw [hds])
      have hsav : surgeon_available st.surgeons c.surgeon_id
          (surgeon_shift_limits c.surgeon_id).1 = v := by
        unfold surgeon_available
        rw [hv]
        rfl
      rw [← hsav] at hdv
      exact le_trans hdv hsav_t
    rw [hst]
    refine ⟨?_, ?_, ?_, ?_, ?_, ?_⟩
    · -- fields_set
      intro d hd
      rcases List.mem_append.1 hd with hd2 | hd2
      · exact hInv.fields_set d hd2
      · have hd3 : d = { c with
          scheduled_or := some r
          scheduled_start_time := some t
          scheduled_end_time := some (t + c.duration) } := by simpa using hd2
        subst hd3
        exact ⟨r, t, by simp, hr, by simp, by simp, by simpa using hc, by simpa using h990,
          by simpa using hse⟩
    · -- room_bound
      intro d hd p hp hpor
      rcases dictSet_mem hp with hpe | ⟨hpm, hpne⟩
      · subst hpe
        rcases List.mem_append.1 hd with hd2 | hd2
        · simp only at hpor ⊢
          exact le_trans (hA d hd2 hpor.symm) (le_trans htF (le_refl _))
        · have hd3 : d = { c with
            scheduled_or := some r
            scheduled_start_time := some t
            scheduled_end_time := some (t + c.duration) } := by simpa using hd2
          subst hd3
          simp [end_val]
      · rcases List.mem_append.1 hd with hd2 | hd2
        · exact hInv.room_bound d hd2 p hpm hpor
        · have hd3 : d = { c with
            scheduled_or := some r
            scheduled_start_time := some t
            scheduled_end_time := some (t + c.duration) } := by simpa using hd2
          subst hd3
          exfalso
          apply hpne
          simpa using hpor
    · -- surg_some
      intro d hd
      rcases List.mem_append.1 hd with hd2 | hd2
      · exact dictGet_dictSet_isSome _ _ _ (hInv.surg_some d hd2)
      · have hd3 : d = { c with
          scheduled_or := some r
          scheduled_start_time := some t
          scheduled_end_time := some (t + c.duration) } := by simpa using hd2
        subst hd3
        simp only
        rw [dictGet_dictSet_self]
        rfl
    · -- surg_bound
      intro d hd p hp hpk
      rcases dictSet_mem hp with hpe | ⟨hpm, hpne⟩
      · subst hpe
        rcases List.mem_append.1 hd with hd2 | hd2
        · simp only at hpk ⊢
          exact le_trans (hB d hd2 hpk.symm) htF
        · have hd3 : d = { c with
            scheduled_or := some r
            scheduled_start_time := some t
            scheduled_end_time := some (t + c.duration) } := by simpa using hd2
          subst hd3
          simp [end_val]
      · rcases List.mem_append.1 hd with hd2 | hd2
        · exact hInv.surg_bound d hd2 p hpm hpk
        · have hd3 : d = { c with
            scheduled_or := some r
            scheduled_start_time := some t
            scheduled_end_time := some (t + c.duration) } := by simpa using hd2
          subst hd3
          exfalso
          apply hpne
          simpa using hpk
    · -- room_disj
      refine List.pairwise_append.2 ⟨hInv.room_disj, by simp, ?_⟩
      intro a ha b hb
      have hb2 : b = { c with
        scheduled_or := some r
        scheduled_start_time := some t
        scheduled_end_time := some (t + c.duration) } := by simpa using hb
      subst hb2
      intro hor
      left
      have hor2 : a.scheduled_or = some r := by simpa using hor
      have := hA a ha hor2
      simpa [start_val] using this
    · -- surg_disj
      refine List.pairwise_append.2 ⟨hInv.surg_disj, by simp, ?_⟩
      intro a ha b hb
      have hb2 : b = { c with
        scheduled_or := some r
        scheduled_start_time := some t
        scheduled_end_time := some (t + c.duration) } := by simpa using hb
      subst hb2
      intro hor
      left
      have hor2 : a.surgeon_id = c.surgeon_id := by simpa using hor
      have := hB a ha hor2
      simpa [start_val] using this
  · -- reject branch
    rw [hst]
    obtain ⟨f, rb, sso, sb, rd, sd⟩ := hInv
    exact ⟨f, rb, sso, sb, rd, sd⟩

/- Generic permutation shuffles used by the loop accounting. -/

theorem perm_shuffle {α : Type} (x : α) (R S U P : List α) (hP : P.Perm (x :: R)) :
    (R ++ (S ++ [x]) ++ U).Perm (P ++ S ++ U) := by
  have h1 : (R ++ (S ++ [x]) ++ U).Perm (R ++ (x :: S) ++ U) :=
    ((List.Perm.refl R).append (List.perm_append_singleton x S)).append (List.Perm.refl U)
  have h3 : ((R ++ (x :: S)) ++ U).Perm ((x :: (R ++ S)) ++ U) :=
    List.Perm.append_right U List.perm_middle
  have h5 : (P ++ S ++ U).Perm ((x :: R) ++ S ++ U) :=
    List.Perm.append_right U (List.Perm.append_right S hP)
  have h13 := h1.trans h3
  rw [show (x :: (R ++ S)) ++ U = x :: (R ++ S ++ U) from rfl] at h13
  rw [show (x :: R) ++ S ++ U = x :: (R ++ S ++ U) from rfl] at h5
  exact h13.trans h5.symm

theorem perm_shuffle2 {α : Type} (x : α) (R S U P : List α) (hP : P.Perm (x :: R)) :
    (R ++ S ++ (U ++ [x])).Perm (P ++ S ++ U) := by
  have h0 : (R ++ S ++ (U ++ [x])) = ((R ++ S) ++ U) ++ [x] := by
    simp [List.append_assoc]
  have h1 : (((R ++ S) ++ U) ++ [x]).Perm (x :: ((R ++ S) ++ U)) :=
    List.perm_append_singleton x _
  have h5 : (P ++ S ++ U).Perm ((x :: R) ++ S ++ U) :=
    List.Perm.append_right U (List.Perm.append_right S hP)
  rw [show (x :: R) ++ S ++ U = x :: (R ++ S ++ U) from rfl] at h5
  rw [h0]
  exact h1.trans h5.symm

/-- Committing does not change the constructor data of a case. -/
theorem core_commit (c : Surgery) (r : String) (t e : Int) :
    Surgery.core { c with
      scheduled_or := some r
      scheduled_start_time := some t
      scheduled_end_time := some e } = Surgery.core c := rfl

/- The main loop: invariant preservation, partition accounting, and the
commit/reject trace. -/

theorem triage_loop_fuel_inv : ∀ (fuel : Nat) (st : Scheduler),
    SchedInv st → (∀ x ∈ st.pending_surgeries, 0 < x.duration) →
    SchedInv (Scheduler.triage_loop_fuel fuel st) := by
  intro fuel
  induction fuel with
  | zero =>
    intro st h _
    exact h
  | succ n ih =>
    intro st h hdur
    simp only [Scheduler.triage_loop_fuel]
    rcases hpop : heap_pop st.pending_surgeries with _ | ⟨c, rest⟩
    · exact h
    · apply ih
      · exact triage_step_inv (schedInv_set_pending rest h) (hdur c (heap_pop_mem hpop))
      · intro x hx
        rw [triage_step_pending] at hx
        exact hdur x (heap_pop_subset hpop (by simpa using hx))

theorem triage_loop_perm : ∀ (fuel : Nat) (st : Scheduler),
    st.pending_surgeries.length ≤ fuel →
    (((Scheduler.triage_loop_fuel fuel st).scheduled_surgeries ++
        (Scheduler.triage_loop_fuel fuel st).unscheduled_surgeries).map Surgery.core).Perm
      ((st.pending_surgeries ++ st.scheduled_surgeries ++
        st.unscheduled_surgeries).map Surgery.core) := by
  intro fuel
  induction fuel with
  | zero =>
    intro st hlen
    have hnil : st.pending_surgeries = [] := by
      cases hx : st.pending_surgeries with
      | nil => rfl
      | cons a l =>
        rw [hx] at hlen
        simp at hlen
    rw [hnil]
    simp [Scheduler.triage_loop_fuel]
  | succ n ih =>
    intro st hlen
    simp only [Scheduler.triage_loop_fuel]
    rcases hpop : heap_pop st.pending_surgeries with _ | ⟨c, rest⟩
    · have hnil : st.pending_surgeries = [] := (heap_pop_none_iff _).1 hpop
      rw [hnil]
      simp
    · have hlen2 : rest.length ≤ n := by
        have := heap_pop_length hpop
        omega
      have hP : (st.pending_surgeries.map Surgery.core).Perm
          (Surgery.core c :: rest.map Surgery.core) := by
        have := (heap_pop_perm hpop).map Surgery.core
        simpa using this
      refine (ih _ ?_).trans ?_
      · rw [triage_step_pending]
        simpa using hlen2
      · rcases triage_step_cases { st with pending_surgeries := rest } c with
          ⟨r, t, hfind, hr, hst⟩ | ⟨hfind, hst⟩
        · rw [hst]
          simp only [triage_step_pending, List.map_append, List.map_cons, List.map_nil,
            core_commit]
          exact perm_shuffle (Surgery.core c) (rest.map Surgery.core)
            (st.scheduled_surgeries.map Surgery.core)
            (st.unscheduled_surgeries.map Surgery.core)
            (st.pending_surgeries.map Surgery.core) hP
        · rw [hst]
          simp only [triage_step_pending, List.map_append, List.map_cons, List.map_nil]
          exact perm_shuffle2 (Surgery.core c) (rest.map Surgery.core)
            (st.scheduled_surgeries.map Surgery.core)
            (st.unscheduled_surgeries.map Surgery.core)
            (st.pending_surgeries.map Surgery.core) hP

theorem triage_loop_trace : ∀ (fuel : Nat) (st : Scheduler),
    ∃ ls lu,
      (Scheduler.triage_loop_fuel fuel st).scheduled_surgeries =
        st.scheduled_surgeries ++ ls ∧
      (Scheduler.triage_loop_fuel fuel st).unscheduled_surgeries =
        st.unscheduled_surgeries ++ lu ∧
      (ls.map Surgery.core).Sublist
        ((pop_order_fuel fuel st.pending_surgeries).map Surgery.core) ∧
      (lu.map Surgery.core).Sublist
        ((pop_order_fuel fuel st.pending_surgeries).map Surgery.core) := by
  intro fuel
  induction fuel with
  | zero =>
    intro st
    exact ⟨[], [], by simp [Scheduler.triage_loop_fuel], by simp [Scheduler.triage_loop_fuel],
      by simp, by simp⟩
  | succ n ih =>
    intro st
    rcases hpop : heap_pop st.pending_surgeries with _ | ⟨c, rest⟩
    · refine ⟨[], [], ?_, ?_, by simp, by simp⟩
      · simp [Scheduler.triage_loop_fuel, hpop]
      · simp [Scheduler.triage_loop_fuel, hpop]
    · have hred : Scheduler.triage_loop_fuel (n + 1) st =
          Scheduler.triage_loop_fuel n
            (Scheduler.triage_step { st with pending_surgeries := rest } c) := by
        simp [Scheduler.triage_loop_fuel, hpop]
      have hpo : pop_order_fuel (n + 1) st.pending_surgeries =
          c :: pop_order_fuel n rest := by
        simp [pop_order_fuel, hpop]
      rw [hred, hpo]
      obtain ⟨ls, lu, h1, h2, h3, h4⟩ :=
        ih (Scheduler.triage_step { st with pending_surgeries := rest } c)
      rw [triage_step_pending] at h3 h4
      rcases triage_step_cases { st with pending_surgeries := rest } c with
        ⟨r, t, hfind, hr, hst⟩ | ⟨hfind, hst⟩
      · rw [hst] at h1 h2 ⊢
        refine ⟨{ c with
            scheduled_or := some r
            scheduled_start_time := some t
            scheduled_end_time := some (t + c.duration) } :: ls, lu, ?_, ?_, ?_, ?_⟩
        · rw [h1]
          simp
        · rw [h2]
        · simp only [List.map_cons, core_commit]
          exact List.Sublist.cons₂ _ (by simpa using h3)
        · exact List.Sublist.cons _ (by simpa using h4)
      · rw [hst] at h1 h2 ⊢
        refine ⟨ls, c :: lu, ?_, ?_, ?_, ?_⟩
        · rw [h1]
        · rw [h2]
          simp
        · exact List.Sublist.cons _ (by simpa using h3)
        · simp only [List.map_cons]
          exact List.Sublist.cons₂ _ (by simpa using h4)

theorem foldl_add_surgery (tasks : List Surgery) (st : Scheduler) :
    tasks.foldl Scheduler.add_surgery st =
      { st with pending_surgeries := st.pending_surgeries ++ tasks } := by
  induction tasks generalizing st with
  | nil => simp
  | cons t ts ih =>
    simp only [List.foldl_cons]
    rw [ih]
    simp [Scheduler.add_surgery, List.append_assoc]

theorem schedInv_sort {st : Scheduler} (h : SchedInv st) :
    SchedInv { st with scheduled_surgeries := sort_by_start st.scheduled_surgeries } := by
  have hperm := sort_by_start_perm st.scheduled_surgeries
  refine ⟨?_, ?_, ?_, ?_, ?_, ?_⟩
  · intro c hc
    exact h.fields_set c (hperm.subset hc)
  · intro c hc p hp hpor
    exact h.room_bound c (hperm.subset hc) p hp hpor
  · intro c hc
    exact h.surg_some c (hperm.subset hc)
  · intro c hc p hp hpk
    exact h.surg_bound c (hperm.subset hc) p hp hpk
  · exact (hperm.pairwise_iff (fun hab => roomDisjoint_symm hab)).2 h.room_disj
  · exact (hperm.pairwise_iff (fun hab => surgeonDisjoint_symm hab)).2 h.surg_disj

theorem run_scheduler_inv (or_ids surgeon_ids : List String) (tasks : List Surgery)
    (hdur : ∀ x ∈ tasks, 0 < x.duration) :
    SchedInv (run_scheduler or_ids surgeon_ids tasks) := by
  unfold run_scheduler Scheduler.triage_and_optimize_or_flow
  apply schedInv_sort
  apply triage_loop_fuel_inv
  · rw [foldl_add_surgery]
    refine ⟨?_, ?_, ?_, ?_, ?_, ?_⟩ <;> simp [Scheduler.init]
  · rw [foldl_add_surgery]
    simpa [Scheduler.init] using hdur

/- End-time bounds hold for every commit regardless of duration signs. -/

theorem triage_step_ends {st : Scheduler} {c : Surgery}
    (h : ∀ d ∈ st.scheduled_surgeries, ∃ e, d.scheduled_end_time = some e ∧
      e ≤ global_day_end ∧ e ≤ (surgeon_shift_limits d.surgeon_id).2) :
    ∀ d ∈ (Scheduler.triage_step st c).scheduled_surgeries,
      ∃ e, d.scheduled_end_time = some e ∧
        e ≤ global_day_end ∧ e ≤ (surgeon_shift_limits d.surgeon_id).2 := by
  rcases triage_step_cases st c with ⟨r, t, hfind, hr, hst⟩ | ⟨hfind, hst⟩
  · obtain ⟨-, av, hav, ht, h990, hse⟩ := find_slot_some_facts hfind
    rw [hst]
    intro d hd
    rcases List.mem_append.1 hd with hd2 | hd2
    · exact h d hd2
    · have hd3 : d = { c with
        scheduled_or := some r
        scheduled_start_time := some t
        scheduled_end_time := some (t + c.duration) } := by simpa using hd2
      subst hd3
      exact ⟨t + c.duration, by simp, by simpa using h990, by simpa using hse⟩
  · rw [hst]
    exact h

theorem triage_loop_ends : ∀ (fuel : Nat) (st : Scheduler),
    (∀ d ∈ st.scheduled_surgeries, ∃ e, d.scheduled_end_time = some e ∧
      e ≤ global_day_end ∧ e ≤ (surgeon_shift_limits d.surgeon_id).2) →
    ∀ d ∈ (Scheduler.triage_loop_fuel fuel st).scheduled_surgeries,
      ∃ e, d.scheduled_end_time = some e ∧
        e ≤ global_day_end ∧ e ≤ (surgeon_shift_limits d.surgeon_id).2 := by
  intro fuel
  induction fuel with
  | zero =>
    intro st h
    exact h
  | succ n ih =>
    intro st h
    simp only [Scheduler.triage_loop_fuel]
    rcases hpop : heap_pop st.pending_surgeries with _ | ⟨c, rest⟩
    · exact h
    · exact ih _ (triage_step_ends h)

theorem run_scheduler_ends (or_ids surgeon_ids : List String) (tasks : List Surgery) :
    ∀ c ∈ (run_scheduler or_ids surgeon_ids tasks).scheduled_surgeries,
      ∃ e, c.scheduled_end_time = some e ∧
        e ≤ global_day_end ∧ e ≤ (surgeon_shift_limits c.surgeon_id).2 := by
  intro c hc
  simp only [run_scheduler, Scheduler.triage_and_optimize_or_flow] at hc
  have hc2 := (sort_by_start_perm _).subset hc
  exact triage_loop_ends _ _ (by rw [foldl_add_surgery]; simp [Scheduler.init]) c hc2

/- The ten claims. -/

/-- C1: for every input task set, every room and every assignee, the half-open
intervals of the cases committed by triage_and_optimize_or_flow are pairwise
non-overlapping per room and per assignee.  Input tasks have positive duration
(spec section 3: duration is a positive quantity; section 7: nonpositive
durations are rejected before entering the queue). -/
theorem scheduled_intervals_nonoverlapping (or_ids surgeon_ids : List String)
    (tasks : List Surgery) (hdur : ∀ x ∈ tasks, 0 < x.duration) :
    (run_scheduler or_ids surgeon_ids tasks).scheduled_surgeries.Pairwise RoomDisjoint ∧
    (run_scheduler or_ids surgeon_ids tasks).scheduled_surgeries.Pairwise SurgeonDisjoint := by
  have h := run_scheduler_inv or_ids surgeon_ids tasks hdur
  exact ⟨h.room_disj, h.surg_disj⟩

/-- Witness for C1 at a concrete input. -/
theorem scheduled_intervals_nonoverlapping_witness :
    (run_scheduler ["OR-A"] ["Dr. Smith"] [demo_task]).scheduled_surgeries.Pairwise
        RoomDisjoint ∧
    (run_scheduler ["OR-A"] ["Dr. Smith"] [demo_task]).scheduled_surgeries.Pairwise
        SurgeonDisjoint :=
  scheduled_intervals_nonoverlapping ["OR-A"] ["Dr. Smith"] [demo_task] (by decide)

/-- C3: scheduled and unscheduled together are exactly the input tasks, no
duplicates and no omissions (stated on the constructor data, since committing
sets the outcome fields of the scheduled copies). -/
theorem schedule_partitions_input (or_ids surgeon_ids : List String)
    (tasks : List Surgery) :
    (((run_scheduler or_ids surgeon_ids tasks).scheduled_surgeries ++
        (run_scheduler or_ids surgeon_ids tasks).unscheduled_surgeries).map
      Surgery.core).Perm (tasks.map Surgery.core) := by
  simp only [run_scheduler, Scheduler.triage_and_optimize_or_flow]
  have hperm := triage_loop_perm
    (tasks.foldl Scheduler.add_surgery (Scheduler.init or_ids surgeon_ids)).pending_surgeries.length
    (tasks.foldl Scheduler.add_surgery (Scheduler.init or_ids surgeon_ids)) (le_refl _)
  have hsort :
      (((sort_by_start (Scheduler.triage_loop_fuel
            (tasks.foldl Scheduler.add_surgery
              (Scheduler.init or_ids surgeon_ids)).pending_surgeries.length
            (tasks.foldl Scheduler.add_surgery
              (Scheduler.init or_ids surgeon_ids))).scheduled_surgeries) ++
          (Scheduler.triage_loop_fuel
            (tasks.foldl Scheduler.add_surgery
              (Scheduler.init or_ids surgeon_ids)).pending_surgeries.length
            (tasks.foldl Scheduler.add_surgery
              (Scheduler.init or_ids surgeon_ids))).unscheduled_surgeries).map
        Surgery.core).Perm
      (((Scheduler.triage_loop_fuel
            (tasks.foldl Scheduler.add_surgery
              (Scheduler.init or_ids surgeon_ids)).pending_surgeries.length
            (tasks.foldl Scheduler.add_surgery
              (Scheduler.init or_ids surgeon_ids))).scheduled_surgeries ++
          (Scheduler.triage_loop_fuel
            (tasks.foldl Scheduler.add_surgery
              (Scheduler.init or_ids surgeon_ids)).pending_surgeries.length
            (tasks.foldl Scheduler.add_surgery
              (Scheduler.init or_ids surgeon_ids))).unscheduled_surgeries).map
        Surgery.core) :=
    ((sort_by_start_perm _).append_right _).map _
  refine hsort.trans (hperm.trans ?_)
  rw [foldl_add_surgery]
  simp [Scheduler.init]

/-- C4: every committed case ends no later than the global day end (16:30, i.e.
990 minutes) and no later than the resolved shift-window end of its assignee
(the custom override when present, else the global day end). -/
theorem scheduled_end_within_limits (or_ids surgeon_ids : List String)
    (tasks : List Surgery) :
    ∀ c ∈ (run_scheduler or_ids surgeon_ids tasks).scheduled_surgeries,
      ∃ e, c.scheduled_end_time = some e ∧
        e ≤ global_day_end ∧ e ≤ (surgeon_shift_limits c.surgeon_id).2 :=
  run_scheduler_ends or_ids surgeon_ids tasks

/-- Witness for C4 at a concrete input. -/
theorem scheduled_end_within_limits_witness :
    ∃ e, demo_committed.scheduled_end_time = some e ∧
      e ≤ global_day_end ∧ e ≤ (surgeon_shift_limits demo_committed.surgeon_id).2 :=
  scheduled_end_within_limits ["OR-A"] ["Dr. Smith"] [demo_task] demo_committed (by decide)

/-- C5: with positive input durations, every committed case satisfies
end - start = duration and start < end. -/
theorem scheduled_duration_consistent (or_ids surgeon_ids : List String)
    (tasks : List Surgery) (hdur : ∀ x ∈ tasks, 0 < x.duration) :
    ∀ c ∈ (run_scheduler or_ids surgeon_ids tasks).scheduled_surgeries,
      ∃ s e, c.scheduled_start_time = some s ∧ c.scheduled_end_time = some e ∧
        e - s = c.duration ∧ s < e := by
  intro c hc
  obtain ⟨r, s, hor, hrne, hstart, hend, hdpos, h990, hse⟩ :=
    (run_scheduler_inv or_ids surgeon_ids tasks hdur).fields_set c hc
  exact ⟨s, s + c.duration, hstart, hend, by omega, by omega⟩

/-- Witness for C5 at a concrete input. -/
theorem scheduled_duration_consistent_witness :
    ∃ s e, demo_committed.scheduled_start_time = some s ∧
      demo_committed.scheduled_end_time = some e ∧
      e - s = demo_committed.duration ∧ s < e :=
  scheduled_duration_consistent ["OR-A"] ["Dr. Smith"] [demo_task] (by decide)
    demo_committed (by decide)

/-- C2 counterexample: the claim fails as stated.  With a single registered
room whose id is the empty string, the room's candidate (start 450, end 510)
is feasible, yet the search reports infeasibility because `if best_or:` is
false for the falsy id.  With a negative duration, a candidate starting at
3000 and ending at 990 is feasible by the stated criterion, yet it is never
kept because its start does not beat the sentinel initial earliest_start of
day_end + one day. -/
theorem find_slot_misses_feasible_candidates :
    (falsy_room_state.find_earliest_feasible_slot demo_task = (none, none) ∧
      spec_feasible_candidates falsy_room_state demo_task = [("", 450)]) ∧
    (late_room_state.find_earliest_feasible_slot negative_task = (none, none) ∧
      spec_feasible_candidates late_room_state negative_task = [("OR-A", 3000)]) := by
  refine ⟨⟨?_, ?_⟩, ?_, ?_⟩ <;> rfl

/-- C2 as amended: when every registered room id is truthy (non-empty) and the
task's duration is nonnegative, _find_earliest_feasible_slot returns exactly
the feasible candidate with minimal candidate_start, ties resolved in favour
of the first room in enumeration order, and reports infeasibility exactly when
no room yields a feasible candidate. -/
theorem find_slot_correct_of_truthy_rooms (st : Scheduler) (surgery : Surgery)
    (hrooms : ∀ p ∈ st.ors, p.1 ≠ "") (hdur : 0 ≤ surgery.duration) :
    st.find_earliest_feasible_slot surgery =
      (match spec_first_min (spec_feasible_candidates st surgery) with
        | none => (none, none)
        | some (r, s) => (some r, some s)) ∧
    (st.find_earliest_feasible_slot surgery = (none, none) ↔
      spec_feasible_candidates st surgery = []) ∧
    (∀ r s, st.find_earliest_feasible_slot surgery = (some r, some s) →
      (r, s) ∈ spec_feasible_candidates st surgery ∧
        ∀ q ∈ spec_feasible_candidates st surgery, s ≤ q.2) := by
  rcases hrun : find_loop st.surgeons surgery.surgeon_id
      (surgeon_shift_limits surgery.surgeon_id).1 (surgeon_shift_limits surgery.surgeon_id).2
      surgery.duration st.ors (global_day_end + 24 * 60) none with ⟨e2, b2⟩
  have hcorr := find_loop_spec_fold st.surgeons surgery.surgeon_id
      (surgeon_shift_limits surgery.surgeon_id).1 (surgeon_shift_limits surgery.surgeon_id).2
      surgery.duration hdur st.ors (global_day_end + 24 * 60) none e2 b2 hrun
      (by intro _; omega)
  have hspec : spec_first_min (spec_feasible_candidates st surgery) =
      (st.ors.filterMap (spec_candidate st.surgeons surgery.surgeon_id
        (surgeon_shift_limits surgery.surgeon_id).1
        (surgeon_shift_limits surgery.surgeon_id).2 surgery.duration)).foldl
        spec_min_step (Option.map (fun r => (r, global_day_end + 24 * 60)) none) := rfl
  rw [← hspec] at hcorr
  have hmain : st.find_earliest_feasible_slot surgery =
      (match spec_first_min (spec_feasible_candidates st surgery) with
        | none => (none, none)
        | some (r, s) => (some r, some s)) := by
    cases b2 with
    | none =>
      have hnone : spec_first_min (spec_feasible_candidates st surgery) = none := by
        rw [← hcorr]
        rfl
      rw [hnone, find_slot_eq, hrun]
    | some r =>
      have hsome : spec_first_min (spec_feasible_candidates st surgery) = some (r, e2) := by
        rw [← hcorr]
        rfl
      have hmem := spec_first_min_mem hsome
      have hmem2 : (r, e2) ∈ st.ors.filterMap (spec_candidate st.surgeons surgery.surgeon_id
          (surgeon_shift_limits surgery.surgeon_id).1
          (surgeon_shift_limits surgery.surgeon_id).2 surgery.duration) := hmem
      have hrne : r ≠ "" := by
        rcases List.mem_filterMap.1 hmem2 with ⟨p, hp, hcp⟩
        have hp1 : p.1 = r := by
          simp only [spec_candidate] at hcp
          split_ifs at hcp
          simp at hcp
          exact hcp.1
        rw [← hp1]
        exact hrooms p hp
      rw [hsome, find_slot_eq, hrun]
      simp [hrne]
  refine ⟨hmain, ?_, ?_⟩
  · constructor
    · intro h
      rcases hfm : spec_first_min (spec_feasible_candidates st surgery) with _ | ⟨r, s⟩
      · exact (spec_first_min_none_iff _).1 hfm
      · rw [hmain, hfm] at h
        simp at h
    · intro h
      rw [hmain, h]
      rfl
  · intro r s h
    rw [hmain] at h
    rcases hfm : spec_first_min (spec_feasible_candidates st surgery) with _ | ⟨r2, s2⟩
    · rw [hfm] at h
      simp at h
    · rw [hfm] at h
      simp at h
      obtain ⟨hr2, hs2⟩ := h
      rw [← hr2, ← hs2]
      exact ⟨spec_first_min_mem hfm, spec_first_min_le hfm⟩

/-- Witness for the amended C2 at a concrete input. -/
theorem find_slot_correct_witness :
    demo_state.find_earliest_feasible_slot demo_task =
      (match spec_first_min (spec_feasible_candidates demo_state demo_task) with
        | none => (none, none)
        | some (r, s) => (some r, some s)) ∧
    (demo_state.find_earliest_feasible_slot demo_task = (none, none) ↔
      spec_feasible_candidates demo_state demo_task = []) ∧
    (∀ r s, demo_state.find_earliest_feasible_slot demo_task = (some r, some s) →
      (r, s) ∈ spec_feasible_candidates demo_state demo_task ∧
        ∀ q ∈ spec_feasible_candidates demo_state demo_task, s ≤ q.2) :=
  find_slot_correct_of_truthy_rooms demo_state demo_task (by decide) (by decide)

/-- C6: Surgery.__lt__ is a strict weak ordering (irreflexive, transitive,
with transitive incomparability) and coincides with the lexicographic order on
(priority value, seniority rank, duration), where the priority value maps
Emergency to 1, Urgent to 2 and everything else (Elective) to 3. -/
theorem triage_comparator_swo :
    (∀ a : Surgery, Surgery.lt a a = false) ∧
    (∀ a b c : Surgery, Surgery.lt a b = true → Surgery.lt b c = true →
      Surgery.lt a c = true) ∧
    (∀ a b c : Surgery, Surgery.lt a b = false → Surgery.lt b a = false →
      Surgery.lt b c = false → Surgery.lt c b = false →
      Surgery.lt a c = false ∧ Surgery.lt c a = false) ∧
    (∀ a b : Surgery, Surgery.lt a b = true ↔ triage_lex a b) ∧
    (∀ a : Surgery, a.priority = "Emergency" → a.get_priority_value = 1) ∧
    (∀ a : Surgery, a.priority = "Urgent" → a.get_priority_value = 2) ∧
    (∀ a : Surgery, a.priority ≠ "Emergency" → a.priority ≠ "Urgent" →
      a.get_priority_value = 3) := by
  have hfalse : ∀ a b : Surgery, Surgery.lt a b = false ↔ ¬ triage_lex a b := by
    intro a b
    rw [← Surgery.lt_iff]
    cases Surgery.lt a b <;> simp
  refine ⟨Surgery.lt_irrefl, fun a b c => Surgery.lt_trans, ?_, Surgery.lt_iff, ?_, ?_, ?_⟩
  · intro a b c h1 h2 h3 h4
    rw [hfalse] at h1 h2 h3 h4 ⊢
    rw [hfalse]
    unfold triage_lex at *
    omega
  · intro a ha
    unfold Surgery.get_priority_value
    rw [if_pos ha]
  · intro a ha
    unfold Surgery.get_priority_value
    rw [if_neg (by rw [ha]; decide), if_pos ha]
  · intro a ha hu
    unfold Surgery.get_priority_value
    rw [if_neg ha, if_neg hu]

/-- Witness for C6: transitivity and the Emergency mapping at concrete cases. -/
theorem triage_comparator_swo_witness :
    Surgery.lt cmp_a cmp_c = true ∧ cmp_a.get_priority_value = 1 :=
  ⟨triage_comparator_swo.2.1 cmp_a cmp_b cmp_c (by decide) (by decide),
    triage_comparator_swo.2.2.2.2.1 cmp_a (by decide)⟩

/-- C7: the pop order delivered by the heap respects the priority order
strictly (no later pop is strictly smaller than an earlier one, so if A is
strictly smaller than B, every pop of A precedes every pop of B), and the
commit and reject sequences produced by the main loop are subsequences of the
pop order, so a case is only ever committed at its own pop position, never
while a strictly smaller case is still pending. -/
theorem priority_pop_and_commit_order (or_ids surgeon_ids : List String)
    (tasks : List Surgery) :
    (pop_order tasks).Pairwise (fun a b => Surgery.lt b a = false) ∧
    (((Scheduler.triage_loop_fuel
        (tasks.foldl Scheduler.add_surgery
          (Scheduler.init or_ids surgeon_ids)).pending_surgeries.length
        (tasks.foldl Scheduler.add_surgery
          (Scheduler.init or_ids surgeon_ids))).scheduled_surgeries.map
      Surgery.core).Sublist ((pop_order tasks).map Surgery.core)) ∧
    (((Scheduler.triage_loop_fuel
        (tasks.foldl Scheduler.add_surgery
          (Scheduler.init or_ids surgeon_ids)).pending_surgeries.length
        (tasks.foldl Scheduler.add_surgery
          (Scheduler.init or_ids surgeon_ids))).unscheduled_surgeries.map
      Surgery.core).Sublist ((pop_order tasks).map Surgery.core)) := by
  have hpend : (tasks.foldl Scheduler.add_surgery
      (Scheduler.init or_ids surgeon_ids)).pending_surgeries = tasks := by
    rw [foldl_add_surgery]
    simp [Scheduler.init]
  obtain ⟨ls, lu, h1, h2, h3, h4⟩ := triage_loop_trace
    (tasks.foldl Scheduler.add_surgery
      (Scheduler.init or_ids surgeon_ids)).pending_surgeries.length
    (tasks.foldl Scheduler.add_surgery (Scheduler.init or_ids surgeon_ids))
  rw [hpend] at h1 h2 h3 h4 ⊢
  have hsched : (tasks.foldl Scheduler.add_surgery
      (Scheduler.init or_ids surgeon_ids)).scheduled_surgeries = [] := by
    rw [foldl_add_surgery]
    simp [Scheduler.init]
  have hunsched : (tasks.foldl Scheduler.add_surgery
      (Scheduler.init or_ids surgeon_ids)).unscheduled_surgeries = [] := by
    rw [foldl_add_surgery]
    simp [Scheduler.init]
  rw [hsched] at h1
  rw [hunsched] at h2
  simp only [List.nil_append] at h1 h2
  refine ⟨pop_order_fuel_pairwise tasks.length tasks, ?_, ?_⟩
  · rw [h1]
    exact h3
  · rw [h2]
    exact h4

/-- C8: each loop iteration is atomic: on success both the chosen room's and
the assignee's tracker entries are set to the computed end time and the case
is appended to the scheduled list, all in the same step; on failure only the
unscheduled list grows, with no tracker mutation. -/
theorem commit_atomicity (st : Scheduler) (c : Surgery) :
    (∃ r t, st.find_earliest_feasible_slot c = (some r, some t) ∧ r ≠ "" ∧
      Scheduler.triage_step st c =
        { st with
          ors := dictSet st.ors r (t + c.duration)
          surgeons := dictSet st.surgeons c.surgeon_id (t + c.duration)
          scheduled_surgeries := st.scheduled_surgeries ++
            [{ c with
               scheduled_or := some r
               scheduled_start_time := some t
               scheduled_end_time := some (t + c.duration) }] }) ∨
    (st.find_earliest_feasible_slot c = (none, none) ∧
      Scheduler.triage_step st c =
        { st with unscheduled_surgeries := st.unscheduled_surgeries ++ [c] }) :=
  triage_step_cases st c

/-- C9 counterexample: the tracker lookup performed during slot search defaults
to the assignee's resolved shift start, not to the configured global day start.
For Dr. Jones (override 08:00) absent from the tracker, the lookup yields 480,
while the configured day start is 450. -/
theorem tracker_default_not_day_start :
    dictGet ([] : List (String × Int)) "Dr. Jones" = none ∧
    surgeon_available [] "Dr. Jones" (surgeon_shift_limits "Dr. Jones").1 = 480 ∧
    global_day_start = 450 ∧ (480 : Int) ≠ 450 := by
  refine ⟨rfl, rfl, rfl, by decide⟩

/-- C9 as amended: for a resource id absent from the tracker, the lookup used
during slot search returns the default passed at the call site, namely the
assignee's resolved shift-window start (which equals the global day start only
when no override exists or the override starts at 07:30). -/
theorem tracker_default_is_shift_start (st : Scheduler) (surgery : Surgery)
    (h : dictGet st.surgeons surgery.surgeon_id = none) :
    surgeon_available st.surgeons surgery.surgeon_id
        (surgeon_shift_limits surgery.surgeon_id).1 =
      (surgeon_shift_limits surgery.surgeon_id).1 := by
  unfold surgeon_available
  rw [h]
  rfl

/-- Witness for the amended C9 at a concrete input. -/
theorem tracker_default_is_shift_start_witness :
    surgeon_available falsy_room_state.surgeons cmp_b.surgeon_id
        (surgeon_shift_limits cmp_b.surgeon_id).1 =
      (surgeon_shift_limits cmp_b.surgeon_id).1 :=
  tracker_default_is_shift_start falsy_room_state cmp_b (by decide)

/-- C10: the engine never commits a case to a room with a falsy (empty-string)
identifier: the slot search never returns such a room, and in the concrete
state whose only room is "" the unique feasible candidate is discarded and the
case lands in unscheduled with no tracker mutation. -/
theorem falsy_room_never_committed :
    (∀ (st : Scheduler) (c : Surgery) (r : String) (t : Int),
      st.find_earliest_feasible_slot c = (some r, some t) → r ≠ "") ∧
    (spec_feasible_candidates falsy_room_state demo_task = [("", 450)] ∧
      falsy_room_state.find_earliest_feasible_slot demo_task = (none, none) ∧
      Scheduler.triage_step falsy_room_state demo_task =
        { falsy_room_state with unscheduled_surgeries := [demo_task] }) := by
  refine ⟨?_, rfl, rfl, ?_⟩
  · intro st c r t h
    exact (find_slot_some_facts h).1
  · rfl

/-- Witness for C10 at a concrete input where the slot search succeeds. -/
theorem falsy_room_never_committed_witness : ("OR-A" : String) ≠ "" :=
  falsy_room_never_committed.1 demo_state demo_task "OR-A" 450 (by decide)
